import Mathlib

/-!
Verification development for the session-manager core of the Vexc repository
(src/src-tauri/src/lib.rs).  Byte strings are modelled as lists of natural
numbers (one per byte); Rust strings are modelled as lists of Unicode scalar
values (one per code point).  Machine-integer overflow is irrelevant for all
quantities involved (lengths and counters stay far below 2^64 in every theorem
below), so Nat is used throughout.
-/

set_option maxHeartbeats 1000000

namespace Vexc

/-- The replacement character U+FFFD used by Rust's lossy UTF-8 decoding. -/
def replacementChar : Nat := 0xFFFD

/-- Model of the continuation-byte test used by core Rust UTF-8 validation
(a byte b with 0x80 <= b <= 0xBF). -/
def isCont (b : Nat) : Bool := 0x80 ≤ b && b ≤ 0xBF

/-- Model of core Rust's UTF8_CHAR_WIDTH table: expected sequence length for a
leading byte, 0 for bytes that can never start a character. -/
def utf8Width (b : Nat) : Nat :=
  if b < 0x80 then 1
  else if b < 0xC2 then 0
  else if b < 0xE0 then 2
  else if b < 0xF0 then 3
  else if b < 0xF5 then 4
  else 0

/-- Model of the second-byte range restrictions in core Rust UTF-8 validation
(special ranges for 0xE0, 0xED, 0xF0, 0xF4; plain continuation otherwise). -/
def secondByteOk (first b1 : Nat) : Bool :=
  if first = 0xE0 then 0xA0 ≤ b1 && b1 ≤ 0xBF
  else if first = 0xED then 0x80 ≤ b1 && b1 ≤ 0x9F
  else if first = 0xF0 then 0x90 ≤ b1 && b1 ≤ 0xBF
  else if first = 0xF4 then 0x80 ≤ b1 && b1 ≤ 0x8F
  else isCont b1

/-- Result of validating one character at the head of a byte list, mirroring
how core Rust's run_utf8_validation reports progress: a complete character of
a given byte length, an invalid maximal subpart of a given length
(error_len = Some len), or an incomplete trailing sequence (error_len = None). -/
inductive Utf8One where
  | empty : Utf8One
  | valid : Nat → Nat → Utf8One
  | invalid : Nat → Utf8One
  | incomplete : Utf8One
deriving DecidableEq

/-- Validate a single UTF-8 character at the head of a byte list, following
core Rust's run_utf8_validation byte-for-byte (including the error_len
reporting used by str::from_utf8). -/
def utf8ValidateOne : List Nat → Utf8One
  | [] => .empty
  | b :: rest =>
    if b < 0x80 then .valid b 1
    else if utf8Width b = 2 then
      match rest with
      | [] => .incomplete
      | b1 :: _ =>
        if isCont b1 then .valid ((b % 0x20) * 0x40 + b1 % 0x40) 2 else .invalid 1
    else if utf8Width b = 3 then
      match rest with
      | [] => .incomplete
      | b1 :: rest1 =>
        if secondByteOk b b1 then
          match rest1 with
          | [] => .incomplete
          | b2 :: _ =>
            if isCont b2 then
              .valid ((b % 0x10) * 0x1000 + (b1 % 0x40) * 0x40 + b2 % 0x40) 3
            else .invalid 2
        else .invalid 1
    else if utf8Width b = 4 then
      match rest with
      | [] => .incomplete
      | b1 :: rest1 =>
        if secondByteOk b b1 then
          match rest1 with
          | [] => .incomplete
          | b2 :: rest2 =>
            if isCont b2 then
              match rest2 with
              | [] => .incomplete
              | b3 :: _ =>
                if isCont b3 then
                  .valid ((b % 8) * 0x40000 + (b1 % 0x40) * 0x1000 +
                    (b2 % 0x40) * 0x40 + b3 % 0x40) 4
                else .invalid 3
            else .invalid 2
        else .invalid 1
    else .invalid 1

/-- Fuelled generic recursion over the UTF-8 character structure of a byte
list.  At each step it performs exactly the case analysis of utf8ValidateOne
(see utf8CasesF_step); it is structurally recursive on the fuel so that all
its instances compute by kernel reduction.  One unit of fuel is spent per
emitted item, and every step consumes at least one byte, so fuel equal to the
list length always suffices (see utf8Cases). -/
def utf8CasesF {α : Type} (e : α) (v : Nat → Nat → α → α) (inv : Nat → α → α)
    (inc : List Nat → α) : Nat → List Nat → α
  | _, [] => e
  | 0, _ :: _ => e
  | fuel + 1, b :: rest =>
    if b < 0x80 then v b 1 (utf8CasesF e v inv inc fuel rest)
    else if utf8Width b = 2 then
      match rest with
      | [] => inc (b :: rest)
      | b1 :: rest1 =>
        if isCont b1 then
          v ((b % 0x20) * 0x40 + b1 % 0x40) 2 (utf8CasesF e v inv inc fuel rest1)
        else inv 1 (utf8CasesF e v inv inc fuel rest)
    else if utf8Width b = 3 then
      match rest with
      | [] => inc (b :: rest)
      | b1 :: rest1 =>
        if secondByteOk b b1 then
          match rest1 with
          | [] => inc (b :: rest)
          | b2 :: rest2 =>
            if isCont b2 then
              v ((b % 0x10) * 0x1000 + (b1 % 0x40) * 0x40 + b2 % 0x40) 3
                (utf8CasesF e v inv inc fuel rest2)
            else inv 2 (utf8CasesF e v inv inc fuel rest1)
        else inv 1 (utf8CasesF e v inv inc fuel rest)
    else if utf8Width b = 4 then
      match rest with
      | [] => inc (b :: rest)
      | b1 :: rest1 =>
        if secondByteOk b b1 then
          match rest1 with
          | [] => inc (b :: rest)
          | b2 :: rest2 =>
            if isCont b2 then
              match rest2 with
              | [] => inc (b :: rest)
              | b3 :: rest3 =>
                if isCont b3 then
                  v ((b % 8) * 0x40000 + (b1 % 0x40) * 0x1000 +
                    (b2 % 0x40) * 0x40 + b3 % 0x40) 4
                    (utf8CasesF e v inv inc fuel rest3)
                else inv 3 (utf8CasesF e v inv inc fuel rest2)
            else inv 2 (utf8CasesF e v inv inc fuel rest1)
        else inv 1 (utf8CasesF e v inv inc fuel rest)
    else inv 1 (utf8CasesF e v inv inc fuel rest)

/-- Generic recursion over the UTF-8 character structure of a byte list,
with the fuel fixed to the list length (always sufficient). -/
def utf8Cases {α : Type} (e : α) (v : Nat → Nat → α → α) (inv : Nat → α → α)
    (inc : List Nat → α) (l : List Nat) : α :=
  utf8CasesF e v inv inc l.length l

/-- Model of String::from_utf8_lossy as a list of Unicode scalar values: each
maximal invalid subsequence (as delimited by core Rust validation) is replaced
by one U+FFFD, and a truncated character at the end of the input also becomes
one U+FFFD. -/
def utf8Lossy : List Nat → List Nat :=
  utf8Cases [] (fun cp _ r => cp :: r) (fun _ r => replacementChar :: r)
    (fun _ => [replacementChar])

/-- Decode a byte list known to be valid UTF-8 into its scalar values
(model of iterating str::chars over a valid str; returns a truncated result on
invalid input, a case never exercised). -/
def utf8DecodeAll : List Nat → List Nat :=
  utf8Cases [] (fun cp _ r => cp :: r) (fun _ _ => []) (fun _ => [])

/-- Streaming lossy decode: the scalar values produced from all complete or
invalid sequences, together with the trailing incomplete bytes (a proper
prefix of one character) that a streaming decoder would hold back.  This is
the specification side for the incremental-decoder proof. -/
def lossyStream : List Nat → List Nat × List Nat :=
  utf8Cases ([], []) (fun cp _ r => (cp :: r.1, r.2))
    (fun _ r => (replacementChar :: r.1, r.2)) (fun l => ([], l))

/-- Shift the valid_up_to component of a from_utf8 error by n consumed bytes. -/
def errShift (n : Nat) : Option (Nat × Option Nat) → Option (Nat × Option Nat)
  | none => none
  | some (va, el) => some (n + va, el)

/-- Model of str::from_utf8's outcome on a byte list: none when the bytes are
valid UTF-8, otherwise some (valid_up_to, error_len) exactly as core Rust's
Utf8Error reports them. -/
def rustFromUtf8Err : List Nat → Option (Nat × Option Nat) :=
  utf8Cases none (fun _ n r => errShift n r) (fun n _ => some (0, some n))
    (fun _ => some (0, none))

/-- Model of str::from_utf8(bytes).is_ok(): the byte list is valid UTF-8. -/
def isUtf8 (l : List Nat) : Bool := (rustFromUtf8Err l).isNone

/-- Model of the decode loop of decode_terminal_output_chunk
(src/src-tauri/src/lib.rs lines 1570-1606): repeatedly run str::from_utf8 on
the buffer; on success push everything and clear the buffer; on an error push
the valid prefix, drain it, then either lossily substitute the invalid bytes
(error_len = Some) and loop, or keep the incomplete tail pending
(error_len = None).  The source guards the valid-prefix push/drain with
valid_up_to > 0; pushing an empty prefix and draining zero bytes make that
guard a no-op, so it is dropped here.  Each iteration consumes at least one
byte, so fuel exceeding the buffer length never runs out. -/
def decodeChunkLoopF : Nat → List Nat → List Nat → List Nat × List Nat
  | 0, decoded, buf => (decoded, buf)
  | fuel + 1, decoded, buf =>
    match rustFromUtf8Err buf with
    | none => (decoded ++ utf8DecodeAll buf, [])
    | some (valid_up_to, error_len) =>
      match error_len with
      | some len =>
        let invalidLen := min len (buf.drop valid_up_to).length
        if invalidLen = 0 then
          (decoded ++ utf8DecodeAll (buf.take valid_up_to), buf.drop valid_up_to)
        else
          decodeChunkLoopF fuel
            (decoded ++ utf8DecodeAll (buf.take valid_up_to) ++
              utf8Lossy ((buf.drop valid_up_to).take invalidLen))
            ((buf.drop valid_up_to).drop invalidLen)
      | none => (decoded ++ utf8DecodeAll (buf.take valid_up_to), buf.drop valid_up_to)

/-- Model of decode_terminal_output_chunk (src/src-tauri/src/lib.rs lines
1567-1609): extend the pending bytes with the chunk, run the decode loop, and
return the decoded text together with the new pending bytes. -/
def decode_terminal_output_chunk (pending chunk : List Nat) : List Nat × List Nat :=
  decodeChunkLoopF ((pending ++ chunk).length + 1) [] (pending ++ chunk)

/-- One read iteration of spawn_terminal_reader as the decoder sees it:
decode the chunk against the pending bytes, append the decoded text to the
output accumulated so far, and keep the new pending bytes. -/
def decodeStreamStep (acc : List Nat × List Nat) (c : List Nat) :
    List Nat × List Nat :=
  (acc.1 ++ (decode_terminal_output_chunk acc.2 c).1,
    (decode_terminal_output_chunk acc.2 c).2)

/-- Feed a sequence of byte chunks through decode_terminal_output_chunk,
threading the pending-bytes state exactly as spawn_terminal_reader does
(src/src-tauri/src/lib.rs lines 1352-1386), and concatenate the decoded
outputs.  Returns (all decoded text, final pending bytes). -/
def decodeStream (chunks : List (List Nat)) : List Nat × List Nat :=
  chunks.foldl decodeStreamStep ([], [])


/-- Capacity of the terminal output buffer (src/src-tauri/src/lib.rs line 52):
1 MiB. -/
def MAX_TERMINAL_BUFFER_BYTES : Nat := 1024 * 1024

/-- Model of str::is_char_boundary on the buffer bytes
(true at 0 and at the length; otherwise true exactly when the byte at the
index is not a UTF-8 continuation byte). -/
def is_char_boundary (s : List Nat) (i : Nat) : Bool :=
  if i = 0 then true
  else
    match s.get? i with
    | none => decide (i = s.length)
    | some b => b < 0x80 || 0xC0 ≤ b

/-- Model of the boundary-search loop of append_terminal_output
(src/src-tauri/src/lib.rs lines 1560-1562): advance drain_to while it is
inside the buffer and not on a character boundary.  Fuelled structural
recursion; the wrapper always supplies enough fuel to scan to the end. -/
def findBoundaryFromF : Nat → List Nat → Nat → Nat
  | 0, _, i => i
  | fuel + 1, out, i =>
    if i < out.length && !(is_char_boundary out i) then
      findBoundaryFromF fuel out (i + 1)
    else i

/-- Model of append_terminal_output (src/src-tauri/src/lib.rs lines
1554-1565): push the chunk, and if the buffer now exceeds its capacity,
drain from the front up to the first character boundary at or after the
overflow point. -/
def append_terminal_output (output chunk : List Nat) : List Nat :=
  let out := output ++ chunk
  if out.length > MAX_TERMINAL_BUFFER_BYTES then
    let overflow := out.length - MAX_TERMINAL_BUFFER_BYTES
    let drain_to := findBoundaryFromF (out.length + 1 - overflow) out overflow
    out.drop drain_to
  else out


/-- Maximum LSP payload size (src/src-tauri/src/lib.rs line 53): 16 MiB. -/
def MAX_LSP_PAYLOAD_BYTES : Nat := 16 * 1024 * 1024

/-- Scalar values of a string literal, used to spell ASCII byte strings. -/
def asciiOf (s : String) : List Nat := s.data.map Char.toNat

/-- The Unicode code points with the White_Space property, as recognized by
Rust's char::is_whitespace (used by str::trim). -/
def isRustWhitespace (c : Nat) : Bool :=
  (9 ≤ c && c ≤ 13) || c = 32 || c = 0x85 || c = 0xA0 || c = 0x1680 ||
    (0x2000 ≤ c && c ≤ 0x200A) || c = 0x2028 || c = 0x2029 || c = 0x202F ||
    c = 0x205F || c = 0x3000

/-- Model of str::trim on a code point list: drop whitespace from both ends. -/
def rustTrim (s : List Nat) : List Nat :=
  ((s.dropWhile isRustWhitespace).reverse.dropWhile isRustWhitespace).reverse

/-- UTF-8 encoding of one Unicode scalar value. -/
def utf8EncodeChar (c : Nat) : List Nat :=
  if c < 0x80 then [c]
  else if c < 0x800 then [0xC0 + c / 0x40, 0x80 + c % 0x40]
  else if c < 0x10000 then
    [0xE0 + c / 0x1000, 0x80 + (c / 0x40) % 0x40, 0x80 + c % 0x40]
  else
    [0xF0 + c / 0x40000, 0x80 + (c / 0x1000) % 0x40, 0x80 + (c / 0x40) % 0x40,
      0x80 + c % 0x40]

/-- Model of str::as_bytes: UTF-8 encoding of a string given as scalar
values. -/
def utf8Encode (s : List Nat) : List Nat := (s.map utf8EncodeChar).join

/-- Decimal digits (ASCII) of a natural number, least significant digit last,
as produced by Display formatting of usize inside a Rust format string.
Fuelled division recursion; the wrapper natToDecimal always supplies enough
fuel. -/
def natToDecimalAux : Nat → Nat → List Nat
  | 0, _ => []
  | fuel + 1, n =>
    if n < 10 then [48 + n] else natToDecimalAux fuel (n / 10) ++ [48 + n % 10]

/-- Decimal digits (ASCII) of a natural number. -/
def natToDecimal (n : Nat) : List Nat := natToDecimalAux (n + 1) n

/-- ASCII code points of the header name Content-Length followed by a colon
(the case-sensitive pattern recognized by read_lsp_payload). -/
def clHeaderName : List Nat := asciiOf "Content-Length:"

/-- Value of a decimal digit list (the accumulating fold of usize parsing). -/
def decimalValue (l : List Nat) : Nat := l.foldl (fun a d => a * 10 + (d - 48)) 0

/-- Model of str::parse::<usize> (usize::from_str): an optional leading plus
sign, then one or more ASCII digits.  Overflow is not modelled: a value at or
beyond 2^64 would fail in Rust but parses here; every theorem below stays far
below that bound. -/
def parseUsize (s : List Nat) : Option Nat :=
  let digs :=
    match s with
    | c :: rest => if c = 43 then rest else s
    | [] => s
  if digs = [] then none
  else if digs.all (fun d => 48 ≤ d && d ≤ 57) then some (decimalValue digs)
  else none

/-- Strip a fixed leading pattern from a code point list (the use the source
makes of str::strip_... with the constant Content-Length: pattern). -/
def stripLeading : List Nat → List Nat → Option (List Nat)
  | [], s => some s
  | _ :: _, [] => none
  | p :: ps, c :: cs => if p = c then stripLeading ps cs else none

/-- Session status; the source stores it as one of exactly these three string
literals. -/
inductive Status where
  | running : Status
  | disconnected : Status
  | closed : Status
deriving DecidableEq

/-- Model of lsp_send (src/src-tauri/src/lib.rs lines 1052-1087): reject a
payload that is blank after trimming, reject a session that is not running,
then write the header format string Content-Length: SP length CRLF CRLF, write
the raw payload bytes, and flush.  The three fallible writer operations are
modelled by success flags; on success the function returns exactly the bytes
placed on the wire, in order. -/
def lsp_send (status : Status) (payload : List Nat)
    (headerOk payloadOk flushOk : Bool) : Except String (List Nat) :=
  if rustTrim payload = [] then .error "LSP payload cannot be empty"
  else if status ≠ Status.running then .error "LSP session is not running"
  else if headerOk = false then .error "Failed to write LSP header"
  else if payloadOk = false then .error "Failed to write LSP payload"
  else if flushOk = false then .error "Failed to flush LSP payload"
  else
    .ok (clHeaderName ++ [32] ++ natToDecimal (utf8Encode payload).length ++
      [13, 10, 13, 10] ++ utf8Encode payload)

/-- Model of BufReader::read_line at the byte level: consume bytes up to and
including the first 0x0A, or up to end of input.  Returns (line bytes, rest);
an empty line means end of stream. -/
def read_line : List Nat → List Nat × List Nat
  | [] => ([], [])
  | b :: rest =>
    if b = 10 then ([b], rest)
    else (b :: (read_line rest).1, (read_line rest).2)

/-- Decidable equality for Except, needed to evaluate frame-reader results. -/
instance {ε α : Type} [DecidableEq ε] [DecidableEq α] :
    DecidableEq (Except ε α) := fun a b =>
  match a, b with
  | .error e1, .error e2 =>
    if h : e1 = e2 then isTrue (by rw [h])
    else isFalse (by intro hc; cases hc; exact h rfl)
  | .error _, .ok _ => isFalse (fun hc => Except.noConfusion hc)
  | .ok _, .error _ => isFalse (fun hc => Except.noConfusion hc)
  | .ok a1, .ok a2 =>
    if h : a1 = a2 then isTrue (by rw [h])
    else isFalse (by intro hc; cases hc; exact h rfl)

/-- Outcome of read_lsp_payload over a modelled input stream: the frame result
(ok none is clean end-of-stream) together with the unconsumed input. -/
structure LspReadResult where
  frame : Except String (Option (List Nat))
  rest : List Nat
deriving DecidableEq

/-- Model of the header loop of read_lsp_payload (src/src-tauri/src/lib.rs
lines 1516-1537): read header lines until a blank line; a read of zero bytes
is clean end-of-stream (ok none); a line that is not UTF-8 fails like
read_line does; a recognized Content-Length header must parse as usize.
Returns the recorded length on reaching the blank line, plus the rest of the
input.  Fuelled: each iteration consumes at least one byte, so fuel above the
input length never runs out. -/
def readHeaderLoopF :
    Nat → List Nat → Option Nat → Except String (Option (Option Nat)) × List Nat
  | 0, input, _ => (.error "internal: header fuel exhausted", input)
  | fuel + 1, input, contentLength =>
    if (read_line input).1.length = 0 then (.ok none, (read_line input).2)
    else if isUtf8 (read_line input).1 = false then
      (.error "Failed to read LSP header", (read_line input).2)
    else if utf8DecodeAll (read_line input).1 = [13, 10] ∨
        utf8DecodeAll (read_line input).1 = [10] then
      (.ok (some contentLength), (read_line input).2)
    else
      match stripLeading clHeaderName (rustTrim (utf8DecodeAll (read_line input).1)) with
      | some lengthText =>
        match parseUsize (rustTrim lengthText) with
        | some parsed => readHeaderLoopF fuel (read_line input).2 (some parsed)
        | none => (.error "Invalid LSP Content-Length header", (read_line input).2)
      | none => readHeaderLoopF fuel (read_line input).2 contentLength

/-- Model of read_lsp_payload (src/src-tauri/src/lib.rs lines 1513-1552) over
an explicit byte stream: run the header loop; end-of-stream before any header
byte is a clean ok-none; a missing Content-Length after the blank line is an
error; a declared size over MAX_LSP_PAYLOAD_BYTES is an error raised before
any body byte is consumed; otherwise read exactly the declared number of body
bytes and return their lossy decoding (read_exact hitting end of input is an
error). -/
def read_lsp_payload (input : List Nat) : LspReadResult :=
  match readHeaderLoopF (input.length + 1) input none with
  | (.error e, rest) => ⟨.error e, rest⟩
  | (.ok none, rest) => ⟨.ok none, rest⟩
  | (.ok (some contentLength), rest) =>
    match contentLength with
    | none => ⟨.error "LSP frame missing Content-Length", rest⟩
    | some message_size =>
      if message_size > MAX_LSP_PAYLOAD_BYTES then
        ⟨.error "LSP payload exceeds maximum size", rest⟩
      else if message_size ≤ rest.length then
        ⟨.ok (some (utf8Lossy (rest.take message_size))), rest.drop message_size⟩
      else ⟨.error "Failed to read LSP payload", []⟩


/-- The mutable per-session fields of TerminalState that command handlers can
observe (src/src-tauri/src/lib.rs lines 28-40); the OS handles (pty master,
writer, child process) carry no observable pure state and are omitted. -/
structure TermSession where
  id : List Nat
  title : List Nat
  shell : List Nat
  status : Status
  cols : Nat
  rows : Nat
  buffer : List Nat
deriving DecidableEq

/-- The session summary returned by listing (struct TerminalSession, lines
103-113). -/
structure TermSummary where
  id : List Nat
  title : List Nat
  shell : List Nat
  status : Status
  cols : Nat
  rows : Nat
deriving DecidableEq

/-- Model of terminal_state_to_session (lines 1254-1264). -/
def terminal_state_to_session (s : TermSession) : TermSummary :=
  ⟨s.id, s.title, s.shell, s.status, s.cols, s.rows⟩

/-- Byte-wise lexicographic comparison (less-or-equal), modelling Ord::cmp on
Rust String (which compares the UTF-8 bytes lexicographically), as used by
sort_by in terminal_list. -/
def lexLe : List Nat → List Nat → Bool
  | [], _ => true
  | _ :: _, [] => false
  | x :: xs, y :: ys =>
    if x < y then true else if y < x then false else lexLe xs ys

/-- The sort order of terminal_list: ascending by id string. -/
def idLe (a b : TermSummary) : Prop := lexLe a.id b.id = true

instance : DecidableRel idLe := fun a b =>
  inferInstanceAs (Decidable (lexLe a.id b.id = true))

instance : IsTotal TermSummary idLe :=
  ⟨fun a b => by
    unfold idLe
    generalize a.id = xs
    generalize b.id = ys
    induction xs generalizing ys with
    | nil => left; rfl
    | cons x xs ih =>
      cases ys with
      | nil => right; rfl
      | cons y ys =>
        by_cases hxy : x < y
        · left; simp [lexLe, hxy]
        · by_cases hyx : y < x
          · right; simp [lexLe, hyx, hxy]
          · rcases ih ys with hl | hr
            · left; simp [lexLe, hxy, hyx, hl]
            · right
              simp [lexLe, hxy, hyx, hr]⟩

instance : IsTrans TermSummary idLe :=
  ⟨fun a b c => by
    unfold idLe
    generalize a.id = xs
    generalize b.id = ys
    generalize c.id = zs
    intro h1 h2
    induction xs generalizing ys zs with
    | nil => rfl
    | cons x xs ih =>
      cases ys with
      | nil => exact absurd h1 (by simp [lexLe])
      | cons y ys =>
        cases zs with
        | nil => exact absurd h2 (by simp [lexLe])
        | cons z zs =>
          simp only [lexLe] at h1 h2 ⊢
          split_ifs at h1 h2 ⊢ <;> try rfl
          all_goals try omega
          all_goals try exact ih ys zs h1 h2
          all_goals simp_all⟩

/-- The id string of the n-th terminal session, as terminal_create formats it
(line 610-613): the literal terminal- followed by the counter in decimal. -/
def termId (n : Nat) : List Nat := asciiOf "terminal-" ++ natToDecimal n

/-- Model of terminal_list (src/src-tauri/src/lib.rs lines 676-692): map every
registered session to its summary and sort by id with String::cmp.  The input
order is arbitrary (HashMap iteration order is unspecified); sort_by is a
comparison sort, and since ids are distinct any comparison sort produces this
same output, here realized as insertion sort. -/
def terminal_list (sessions : List TermSession) : List TermSummary :=
  List.insertionSort idLe (sessions.map terminal_state_to_session)

/-- A freshly created session with counter value n (terminal_create, lines
610-655): running status, default geometry, empty buffer. -/
def mkTermSession (n : Nat) : TermSession :=
  ⟨termId n, asciiOf "Terminal " ++ natToDecimal n, asciiOf "powershell.exe",
    Status.running, 120, 30, []⟩

/-- Association-list model of the HashMap from session id to session handle. -/
def lookupSession : List (List Nat × TermSession) → List Nat → Option TermSession
  | [], _ => none
  | (k, v) :: rest, sid => if k = sid then some v else lookupSession rest sid

/-- HashMap::remove on the association-list registry. -/
def removeSession (reg : List (List Nat × TermSession)) (sid : List Nat) :
    List (List Nat × TermSession) :=
  reg.filter (fun kv => decide (kv.1 ≠ sid))

/-- Model of terminal_close (src/src-tauri/src/lib.rs lines 785-805): remove
the session from the registry; if one was removed, set its status to closed
(the process is then killed and reaped).  Returns the new registry, the
removed session after its update, and the Ack (always ok). -/
def terminal_close (reg : List (List Nat × TermSession)) (sid : List Nat) :
    List (List Nat × TermSession) × Option TermSession × Bool :=
  match lookupSession reg sid with
  | none => (reg, none, true)
  | some s => (removeSession reg sid, some { s with status := Status.closed }, true)

/-- Result of terminal_write: the command result, the registry afterwards, and
the bytes that reached the PTY writer. -/
structure WriteOutcome where
  result : Except String Bool
  reg : List (List Nat × TermSession)
  written : List Nat
deriving DecidableEq

/-- Model of terminal_write (src/src-tauri/src/lib.rs lines 707-736): empty
input returns ok before consulting the registry; unknown id is a not-found
error; a session not running is an error; otherwise write-then-flush (two
fallible operations modelled by success flags) forwards the bytes verbatim.
No branch modifies the registry or any session field. -/
def terminal_write (reg : List (List Nat × TermSession)) (sid input : List Nat)
    (writeOk flushOk : Bool) : WriteOutcome :=
  if input = [] then ⟨.ok true, reg, []⟩
  else
    match lookupSession reg sid with
    | none => ⟨.error "Terminal session not found", reg, []⟩
    | some s =>
      if s.status ≠ Status.running then
        ⟨.error "Terminal session has already exited", reg, []⟩
      else if writeOk = false then
        ⟨.error "Failed to write to terminal", reg, []⟩
      else if flushOk = false then
        ⟨.error "Failed to flush terminal input", reg, input⟩
      else ⟨.ok true, reg, input⟩

/-- Status update performed by terminal_close (line 798) and lsp_stop (line
1153) on the session they removed: unconditionally closed. -/
def close_status_update (_s : Status) : Status := Status.closed

/-- Status update performed at the end of spawn_terminal_reader (lines
1415-1417) and by cleanup_lsp_session_on_disconnect (lines 1324-1326):
becomes disconnected only if still running, otherwise unchanged. -/
def disconnect_status_update (s : Status) : Status :=
  if s = Status.running then Status.disconnected else s

/-- terminal_write, terminal_resize, terminal_clear, terminal_snapshot and
lsp_send never assign the status field; their status update is the
identity. -/
def command_status_update (s : Status) : Status := s

/-- The allowed forward moves of the status machine: running may go anywhere,
disconnected may stay or close, closed only stays closed. -/
def statusStepOk (s t : Status) : Bool :=
  match s, t with
  | Status.running, _ => true
  | Status.disconnected, Status.disconnected => true
  | Status.disconnected, Status.closed => true
  | Status.closed, Status.closed => true
  | _, _ => false

theorem utf8CasesF_step {α : Type} (e : α) (v : Nat → Nat → α → α)
    (inv : Nat → α → α) (inc : List Nat → α) (fuel : Nat) (l : List Nat) :
    utf8CasesF e v inv inc (fuel + 1) l =
      (match utf8ValidateOne l with
      | .empty => e
      | .valid cp n => v cp n (utf8CasesF e v inv inc fuel (l.drop n))
      | .invalid n => inv n (utf8CasesF e v inv inc fuel (l.drop n))
      | .incomplete => inc l) := by
  rcases l with _ | ⟨b, _ | ⟨b1, _ | ⟨b2, _ | ⟨b3, rest⟩⟩⟩⟩ <;>
    simp only [utf8CasesF, utf8ValidateOne] <;>
    repeat' (first | rfl | split)
  all_goals simp_all [utf8CasesF]
  all_goals
    (rename_i heq; first | (rcases heq with ⟨rfl, rfl⟩) | (rcases heq with rfl)) <;>
    simp [utf8CasesF]

theorem utf8ValidateOne_valid_bounds {l : List Nat} {cp n : Nat}
    (h : utf8ValidateOne l = .valid cp n) : 1 ≤ n ∧ n ≤ l.length := by
  rcases l with _ | ⟨b, _ | ⟨b1, _ | ⟨b2, _ | ⟨b3, rest⟩⟩⟩⟩ <;>
    simp only [utf8ValidateOne] at h <;>
    repeat' split at h
  all_goals simp_all
  all_goals omega

theorem utf8ValidateOne_invalid_bounds {l : List Nat} {n : Nat}
    (h : utf8ValidateOne l = .invalid n) : 1 ≤ n ∧ n ≤ l.length := by
  rcases l with _ | ⟨b, _ | ⟨b1, _ | ⟨b2, _ | ⟨b3, rest⟩⟩⟩⟩ <;>
    simp only [utf8ValidateOne] at h <;>
    repeat' split at h
  all_goals simp_all
  all_goals omega

theorem utf8ValidateOne_empty_iff {l : List Nat} :
    utf8ValidateOne l = .empty ↔ l = [] := by
  rcases l with _ | ⟨b, _ | ⟨b1, _ | ⟨b2, _ | ⟨b3, rest⟩⟩⟩⟩ <;>
    simp only [utf8ValidateOne] <;>
    repeat' split
  all_goals simp_all

theorem utf8CasesF_congr {α : Type} (e : α) (v : Nat → Nat → α → α)
    (inv : Nat → α → α) (inc : List Nat → α) :
    ∀ fuel1 fuel2 l, l.length ≤ fuel1 → l.length ≤ fuel2 →
      utf8CasesF e v inv inc fuel1 l = utf8CasesF e v inv inc fuel2 l := by
  intro fuel1
  induction fuel1 with
  | zero =>
    intro fuel2 l h1 h2
    have hl : l = [] := by
      cases l with
      | nil => rfl
      | cons a as => simp at h1
    subst hl
    cases fuel2 <;> simp [utf8CasesF]
  | succ f ih =>
    intro fuel2 l h1 h2
    cases l with
    | nil => cases fuel2 <;> simp [utf8CasesF]
    | cons b rest =>
      cases fuel2 with
      | zero => simp at h2
      | succ k =>
        rw [utf8CasesF_step, utf8CasesF_step]
        rcases hv : utf8ValidateOne (b :: rest) with _ | ⟨cp, n⟩ | n | _
        · rfl
        · dsimp only
          have hb := utf8ValidateOne_valid_bounds hv
          have hlen : ((b :: rest).drop n).length ≤ f := by
            simp at h1 ⊢; omega
          have hlen2 : ((b :: rest).drop n).length ≤ k := by
            simp at h2 ⊢; omega
          rw [ih k _ hlen hlen2]
        · dsimp only
          have hb := utf8ValidateOne_invalid_bounds hv
          have hlen : ((b :: rest).drop n).length ≤ f := by
            simp at h1 ⊢; omega
          have hlen2 : ((b :: rest).drop n).length ≤ k := by
            simp at h2 ⊢; omega
          rw [ih k _ hlen hlen2]
        · rfl

theorem utf8Cases_eq {α : Type} (e : α) (v : Nat → Nat → α → α)
    (inv : Nat → α → α) (inc : List Nat → α) (l : List Nat) :
    utf8Cases e v inv inc l =
      (match utf8ValidateOne l with
      | .empty => e
      | .valid cp n => v cp n (utf8Cases e v inv inc (l.drop n))
      | .invalid n => inv n (utf8Cases e v inv inc (l.drop n))
      | .incomplete => inc l) := by
  cases l with
  | nil => simp [utf8Cases, utf8CasesF, utf8ValidateOne]
  | cons b rest =>
    show utf8CasesF e v inv inc (rest.length + 1) (b :: rest) = _
    rw [utf8CasesF_step]
    rcases hv : utf8ValidateOne (b :: rest) with _ | ⟨cp, n⟩ | n | _
    · rfl
    · dsimp only
      have hb := utf8ValidateOne_valid_bounds hv
      rw [utf8CasesF_congr e v inv inc rest.length ((b :: rest).drop n).length
        ((b :: rest).drop n) (by simp at hb ⊢; omega) (le_refl _)]
      rfl
    · dsimp only
      have hb := utf8ValidateOne_invalid_bounds hv
      rw [utf8CasesF_congr e v inv inc rest.length ((b :: rest).drop n).length
        ((b :: rest).drop n) (by simp at hb ⊢; omega) (le_refl _)]
      rfl
    · rfl

theorem utf8Lossy_eq (l : List Nat) :
    utf8Lossy l =
      (match utf8ValidateOne l with
      | .empty => []
      | .valid cp n => cp :: utf8Lossy (l.drop n)
      | .invalid n => replacementChar :: utf8Lossy (l.drop n)
      | .incomplete => [replacementChar]) := by
  show utf8Cases _ _ _ _ l = _
  rw [utf8Cases_eq]
  rcases h : utf8ValidateOne l <;> rfl

theorem utf8DecodeAll_eq (l : List Nat) :
    utf8DecodeAll l =
      (match utf8ValidateOne l with
      | .empty => []
      | .valid cp n => cp :: utf8DecodeAll (l.drop n)
      | .invalid _ => []
      | .incomplete => []) := by
  show utf8Cases _ _ _ _ l = _
  rw [utf8Cases_eq]
  rcases h : utf8ValidateOne l <;> rfl

theorem lossyStream_eq (l : List Nat) :
    lossyStream l =
      (match utf8ValidateOne l with
      | .empty => ([], [])
      | .valid cp n => ((cp :: (lossyStream (l.drop n)).1, (lossyStream (l.drop n)).2))
      | .invalid n =>
        ((replacementChar :: (lossyStream (l.drop n)).1, (lossyStream (l.drop n)).2))
      | .incomplete => ([], l)) := by
  show utf8Cases _ _ _ _ l = _
  rw [utf8Cases_eq]
  rcases h : utf8ValidateOne l <;> rfl

theorem rustFromUtf8Err_eq (l : List Nat) :
    rustFromUtf8Err l =
      (match utf8ValidateOne l with
      | .empty => none
      | .valid _ n => errShift n (rustFromUtf8Err (l.drop n))
      | .invalid n => some (0, some n)
      | .incomplete => some (0, none)) := by
  show utf8Cases _ _ _ _ l = _
  rw [utf8Cases_eq]
  rcases h : utf8ValidateOne l <;> rfl

theorem listLenInd {P : List Nat → Prop}
    (step : ∀ l, (∀ m : List Nat, m.length < l.length → P m) → P l) :
    ∀ l, P l := by
  have aux : ∀ n (l : List Nat), l.length ≤ n → P l := by
    intro n
    induction n with
    | zero =>
      intro l h
      exact step l (fun m hm => absurd hm (by omega))
    | succ k ih =>
      intro l h
      exact step l (fun m hm => ih m (by omega))
  intro l
  exact aux l.length l (le_refl _)

theorem utf8ValidateOne_valid_take {l : List Nat} {cp n : Nat} (m : List Nat)
    (h : utf8ValidateOne l = .valid cp n) :
    utf8ValidateOne (l.take n ++ m) = .valid cp n := by
  rcases l with _ | ⟨b, _ | ⟨b1, _ | ⟨b2, _ | ⟨b3, rest⟩⟩⟩⟩ <;>
    simp only [utf8ValidateOne] at h <;>
    repeat' split at h
  all_goals
    first
      | (exact Utf8One.noConfusion h)
      | (injection h with h1 h2; subst h1; subst h2; simp_all [utf8ValidateOne])

theorem utf8ValidateOne_valid_append {l : List Nat} {cp n : Nat} (m : List Nat)
    (h : utf8ValidateOne l = .valid cp n) :
    utf8ValidateOne (l ++ m) = .valid cp n := by
  have hb := utf8ValidateOne_valid_bounds h
  have : l ++ m = l.take n ++ (l.drop n ++ m) := by
    rw [← List.append_assoc, List.take_append_drop]
  rw [this]
  exact utf8ValidateOne_valid_take _ h

theorem utf8ValidateOne_invalid_append {l : List Nat} {n : Nat} (m : List Nat)
    (h : utf8ValidateOne l = .invalid n) :
    utf8ValidateOne (l ++ m) = .invalid n := by
  rcases l with _ | ⟨b, _ | ⟨b1, _ | ⟨b2, _ | ⟨b3, rest⟩⟩⟩⟩ <;>
    simp only [utf8ValidateOne] at h <;>
    repeat' split at h
  all_goals
    first
      | (exact Utf8One.noConfusion h)
      | (injection h with h1; subst h1; simp_all [utf8ValidateOne])

theorem utf8ValidateOne_invalid_lossy {l : List Nat} {n : Nat}
    (h : utf8ValidateOne l = .invalid n) :
    utf8Lossy (l.take n) = [replacementChar] := by
  rcases l with _ | ⟨b, _ | ⟨b1, _ | ⟨b2, _ | ⟨b3, rest⟩⟩⟩⟩ <;>
    simp only [utf8ValidateOne] at h <;>
    repeat' split at h
  all_goals
    first
      | (exact Utf8One.noConfusion h)
      | (injection h with h1; subst h1;
          simp_all [utf8Lossy, utf8Cases, utf8CasesF])

theorem errShift_eq_none {n : Nat} {r : Option (Nat × Option Nat)} :
    errShift n r = none ↔ r = none := by
  cases r with
  | none => simp [errShift]
  | some p => cases p; simp [errShift]

theorem errShift_eq_some {n : Nat} {r : Option (Nat × Option Nat)}
    {va : Nat} {el : Option Nat} (h : errShift n r = some (va, el)) :
    ∃ w, r = some (w, el) ∧ va = n + w := by
  cases r with
  | none => simp [errShift] at h
  | some p =>
    cases p with
    | mk w el2 =>
      simp [errShift] at h
      exact ⟨w, by rw [h.2], by omega⟩

theorem utf8Lossy_decomp : ∀ l : List Nat,
    utf8Lossy l = (lossyStream l).1 ++ utf8Lossy (lossyStream l).2 := by
  refine listLenInd ?_
  intro l ih
  rcases hv : utf8ValidateOne l with _ | ⟨cp, n⟩ | n | _
  · have hl : l = [] := utf8ValidateOne_empty_iff.mp hv
    subst hl
    simp [utf8Lossy, lossyStream, utf8Cases, utf8CasesF]
  · have hb := utf8ValidateOne_valid_bounds hv
    have hlt : (l.drop n).length < l.length := by simp; omega
    rw [utf8Lossy_eq l, lossyStream_eq l, hv]
    dsimp only
    rw [ih (l.drop n) hlt]
    simp
  · have hb := utf8ValidateOne_invalid_bounds hv
    have hlt : (l.drop n).length < l.length := by simp; omega
    rw [utf8Lossy_eq l, lossyStream_eq l, hv]
    dsimp only
    rw [ih (l.drop n) hlt]
    simp
  · rw [lossyStream_eq l, hv]
    dsimp only
    simp

theorem lossyStream_append (l : List Nat) : ∀ m : List Nat,
    lossyStream (l ++ m) =
      ((lossyStream l).1 ++ (lossyStream ((lossyStream l).2 ++ m)).1,
        (lossyStream ((lossyStream l).2 ++ m)).2) := by
  induction l using listLenInd with
  | step l ih =>
    intro m
    rcases hv : utf8ValidateOne l with _ | ⟨cp, n⟩ | n | _
    · have hl : l = [] := utf8ValidateOne_empty_iff.mp hv
      subst hl
      simp [lossyStream, utf8Cases, utf8CasesF]
    · have hb := utf8ValidateOne_valid_bounds hv
      have hlt : (l.drop n).length < l.length := by simp; omega
      have hVm := utf8ValidateOne_valid_append m hv
      rw [lossyStream_eq (l ++ m), hVm]
      rw [lossyStream_eq l, hv]
      dsimp only
      rw [List.drop_append_of_le_length hb.2, ih (l.drop n) hlt m]
      simp
    · have hb := utf8ValidateOne_invalid_bounds hv
      have hlt : (l.drop n).length < l.length := by simp; omega
      have hVm := utf8ValidateOne_invalid_append m hv
      rw [lossyStream_eq (l ++ m), hVm]
      rw [lossyStream_eq l, hv]
      dsimp only
      rw [List.drop_append_of_le_length hb.2, ih (l.drop n) hlt m]
      simp
    · rw [lossyStream_eq l, hv]
      dsimp only
      simp

theorem lossyStream_leftover : ∀ l : List Nat,
    lossyStream ((lossyStream l).2) = ([], (lossyStream l).2) := by
  refine listLenInd ?_
  intro l ih
  rcases hv : utf8ValidateOne l with _ | ⟨cp, n⟩ | n | _
  · have hl : l = [] := utf8ValidateOne_empty_iff.mp hv
    subst hl
    simp [lossyStream, utf8Cases, utf8CasesF]
  · have hb := utf8ValidateOne_valid_bounds hv
    have hlt : (l.drop n).length < l.length := by simp; omega
    rw [lossyStream_eq l, hv]
    dsimp only
    exact ih (l.drop n) hlt
  · have hb := utf8ValidateOne_invalid_bounds hv
    have hlt : (l.drop n).length < l.length := by simp; omega
    rw [lossyStream_eq l, hv]
    dsimp only
    exact ih (l.drop n) hlt
  · rw [lossyStream_eq l, hv]
    dsimp only
    rw [lossyStream_eq l, hv]

theorem rustFromUtf8_ok_lossyStream : ∀ l : List Nat,
    rustFromUtf8Err l = none → lossyStream l = (utf8DecodeAll l, []) := by
  refine listLenInd ?_
  intro l ih h
  rcases hv : utf8ValidateOne l with _ | ⟨cp, n⟩ | n | _
  · have hl : l = [] := utf8ValidateOne_empty_iff.mp hv
    subst hl
    simp [lossyStream, utf8DecodeAll, utf8Cases, utf8CasesF]
  · have hb := utf8ValidateOne_valid_bounds hv
    have hlt : (l.drop n).length < l.length := by simp; omega
    rw [rustFromUtf8Err_eq, hv] at h
    dsimp only at h
    rw [errShift_eq_none] at h
    rw [lossyStream_eq l, hv, utf8DecodeAll_eq l, hv]
    dsimp only
    rw [ih (l.drop n) hlt h]
  · rw [rustFromUtf8Err_eq, hv] at h
    simp at h
  · rw [rustFromUtf8Err_eq, hv] at h
    simp at h

theorem rustFromUtf8_err_decomp : ∀ l : List Nat, ∀ va : Nat, ∀ el : Option Nat,
    rustFromUtf8Err l = some (va, el) →
      va ≤ l.length ∧
      (lossyStream l).1 = utf8DecodeAll (l.take va) ++ (lossyStream (l.drop va)).1 ∧
      (lossyStream l).2 = (lossyStream (l.drop va)).2 ∧
      utf8ValidateOne (l.drop va) =
        (match el with
        | some k => Utf8One.invalid k
        | none => Utf8One.incomplete) := by
  refine listLenInd ?_
  intro l ih va el h
  rcases hv : utf8ValidateOne l with _ | ⟨cp, n⟩ | n | _
  · have hl : l = [] := utf8ValidateOne_empty_iff.mp hv
    subst hl
    simp [rustFromUtf8Err, utf8Cases, utf8CasesF] at h
  · have hb := utf8ValidateOne_valid_bounds hv
    have hlt : (l.drop n).length < l.length := by simp; omega
    rw [rustFromUtf8Err_eq, hv] at h
    dsimp only at h
    obtain ⟨w, hr, hva⟩ := errShift_eq_some h
    obtain ⟨ih1, ih2, ih3, ih4⟩ := ih (l.drop n) hlt w el hr
    have hwlen : w ≤ l.length - n := by
      simpa using ih1
    have htake : l.take va = l.take n ++ (l.drop n).take w := by
      rw [hva, List.take_add]
    have htn : (l.take n).length = n := by
      simp [hb.2]
    have hdec : utf8DecodeAll (l.take va) =
        cp :: utf8DecodeAll ((l.drop n).take w) := by
      rw [htake, utf8DecodeAll_eq,
        utf8ValidateOne_valid_take ((l.drop n).take w) hv]
      dsimp only
      rw [List.drop_left' htn]
    have hdrop : l.drop va = (l.drop n).drop w := by
      rw [List.drop_drop, hva, Nat.add_comm]
    refine ⟨by omega, ?_, ?_, ?_⟩
    · rw [lossyStream_eq l, hv]
      dsimp only
      rw [ih2, hdec, hdrop]
      simp
    · rw [lossyStream_eq l, hv]
      dsimp only
      rw [ih3, hdrop]
    · rw [hdrop]
      exact ih4
  · rw [rustFromUtf8Err_eq, hv] at h
    dsimp only at h
    have hva : va = 0 ∧ el = some n := by
      simp at h
      exact ⟨h.1.symm, h.2.symm⟩
    obtain ⟨h0, hel⟩ := hva
    subst h0; subst hel
    refine ⟨by omega, by simp [utf8DecodeAll, utf8Cases, utf8CasesF],
      by simp, by simpa using hv⟩
  · rw [rustFromUtf8Err_eq, hv] at h
    dsimp only at h
    have hva : va = 0 ∧ el = none := by
      simp at h
      exact ⟨h.1.symm, h.2.symm⟩
    obtain ⟨h0, hel⟩ := hva
    subst h0; subst hel
    refine ⟨by omega, by simp [utf8DecodeAll, utf8Cases, utf8CasesF],
      by simp, by simpa using hv⟩

theorem decodeChunkLoopF_eq : ∀ fuel (acc buf : List Nat), buf.length < fuel →
    decodeChunkLoopF fuel acc buf =
      (acc ++ (lossyStream buf).1, (lossyStream buf).2) := by
  intro fuel
  induction fuel with
  | zero =>
    intro acc buf h
    omega
  | succ f ih =>
    intro acc buf h
    rcases hr : rustFromUtf8Err buf with _ | ⟨va, el⟩
    · simp only [decodeChunkLoopF, hr]
      rw [rustFromUtf8_ok_lossyStream buf hr]
    · obtain ⟨h1, h2, h3, h4⟩ := rustFromUtf8_err_decomp buf va el hr
      rcases el with _ | k
      · dsimp only at h4
        have h5 : lossyStream (buf.drop va) = ([], buf.drop va) := by
          rw [lossyStream_eq, h4]
        simp only [decodeChunkLoopF, hr]
        rw [h2, h3, h5]
        simp
      · dsimp only at h4
        have hkb := utf8ValidateOne_invalid_bounds h4
        have hmin : min k (buf.drop va).length = k := Nat.min_eq_left hkb.2
        have hk0 : ¬ (k = 0) := by omega
        have hlossy := utf8ValidateOne_invalid_lossy h4
        have hlen2 : ((buf.drop va).drop k).length < f := by
          have hdlen : (buf.drop va).length = buf.length - va := by simp
          simp only [List.length_drop] at hkb ⊢
          omega
        simp only [decodeChunkLoopF, hr, hmin, hk0, if_false, hlossy]
        rw [ih _ _ hlen2]
        have h6 : lossyStream (buf.drop va) =
            (replacementChar :: (lossyStream ((buf.drop va).drop k)).1,
              (lossyStream ((buf.drop va).drop k)).2) := by
          rw [lossyStream_eq, h4]
        rw [h2, h3, h6]
        simp

theorem decode_terminal_output_chunk_eq (pending chunk : List Nat) :
    decode_terminal_output_chunk pending chunk = lossyStream (pending ++ chunk) := by
  unfold decode_terminal_output_chunk
  rw [decodeChunkLoopF_eq _ _ _ (by omega)]
  simp

theorem decodeStream_foldl : ∀ (chunks : List (List Nat)) (out p : List Nat),
    lossyStream p = ([], p) →
    chunks.foldl decodeStreamStep (out, p) =
      (out ++ (lossyStream (p ++ chunks.join)).1,
        (lossyStream (p ++ chunks.join)).2) := by
  intro chunks
  induction chunks with
  | nil =>
    intro out p hp
    simp [hp]
  | cons c rest ih =>
    intro out p hp
    rw [List.foldl_cons]
    have hstep : decodeStreamStep (out, p) c =
        (out ++ (lossyStream (p ++ c)).1, (lossyStream (p ++ c)).2) := by
      simp [decodeStreamStep, decode_terminal_output_chunk_eq]
    rw [hstep, ih (out ++ (lossyStream (p ++ c)).1) ((lossyStream (p ++ c)).2)
      (lossyStream_leftover (p ++ c))]
    have hc := lossyStream_append (p ++ c) rest.join
    simp only [List.join_cons, ← List.append_assoc]
    rw [hc]
    simp

/-- C1: feeding any sequence of byte chunks through the incremental decoder
decode_terminal_output_chunk (threading the pending-bytes state as
spawn_terminal_reader does), the concatenation of the returned strings plus
the lossy decoding of the final pending remainder equals the lossy UTF-8
decoding of the concatenation of all the chunks, for every way the stream is
split into chunks (in particular when a multi-byte character is split across
chunk boundaries). -/
theorem decode_terminal_output_chunk_stream_correct (chunks : List (List Nat)) :
    (decodeStream chunks).1 ++ utf8Lossy (decodeStream chunks).2 =
      utf8Lossy chunks.join := by
  unfold decodeStream
  rw [decodeStream_foldl chunks [] []
    (by simp [lossyStream, utf8Cases, utf8CasesF])]
  dsimp only
  rw [utf8Lossy_decomp chunks.join]
  simp

theorem secondByteOk_range {b b1 : Nat} (h : secondByteOk b b1 = true) :
    0x80 ≤ b1 ∧ b1 < 0xC0 := by
  unfold secondByteOk at h
  split_ifs at h <;> simp [isCont] at h <;> omega

theorem utf8Width_ge2 {b : Nat} (h : 2 ≤ utf8Width b) : 0xC2 ≤ b := by
  unfold utf8Width at h
  split_ifs at h <;> omega

theorem utf8ValidateOne_valid_cont {l : List Nat} {cp n : Nat}
    (h : utf8ValidateOne l = .valid cp n) :
    ∀ j, 0 < j → j < n → ∃ b, l.get? j = some b ∧ 0x80 ≤ b ∧ b < 0xC0 := by
  rcases l with _ | ⟨b, _ | ⟨b1, _ | ⟨b2, _ | ⟨b3, rest⟩⟩⟩⟩ <;>
    simp only [utf8ValidateOne] at h <;>
    repeat' split at h
  all_goals
    first
      | (exact Utf8One.noConfusion h)
      | (injection h with h1 h2; subst h1; subst h2; intro j hj1 hj2;
          interval_cases j <;>
          refine ⟨_, rfl, ?_⟩ <;>
          (first
            | (simp_all [isCont]; omega)
            | (rename_i hsb _; have := secondByteOk_range hsb; omega)
            | (rename_i hsb _ _; have := secondByteOk_range hsb; omega)))

theorem utf8ValidateOne_valid_head {l : List Nat} {cp n : Nat}
    (h : utf8ValidateOne l = .valid cp n) :
    ∃ b, l.get? 0 = some b ∧ (b < 0x80 ∨ 0xC0 ≤ b) := by
  cases l with
  | nil => exact absurd h (by simp [utf8ValidateOne])
  | cons b rest =>
    refine ⟨b, rfl, ?_⟩
    by_cases hb : b < 0x80
    · exact Or.inl hb
    · right
      by_contra hcon
      push_neg at hcon
      have hw : utf8Width b = 0 := by
        unfold utf8Width
        split_ifs <;> omega
      simp [utf8ValidateOne, hw, hb] at h

theorem isUtf8_iff {l : List Nat} : isUtf8 l = true ↔ rustFromUtf8Err l = none := by
  unfold isUtf8
  exact Option.isNone_iff_eq_none

theorem isUtf8_valid_drop {l : List Nat} {cp n : Nat}
    (hv : utf8ValidateOne l = .valid cp n) (hl : isUtf8 l = true) :
    isUtf8 (l.drop n) = true := by
  rw [isUtf8_iff] at hl ⊢
  rw [rustFromUtf8Err_eq, hv] at hl
  dsimp only at hl
  exact errShift_eq_none.mp hl

theorem isUtf8_append : ∀ a : List Nat, ∀ b : List Nat,
    isUtf8 a = true → isUtf8 b = true → isUtf8 (a ++ b) = true := by
  intro a
  induction a using listLenInd with
  | step a ih =>
    intro b ha hb
    rcases hv : utf8ValidateOne a with _ | ⟨cp, n⟩ | n | _
    · have hl : a = [] := utf8ValidateOne_empty_iff.mp hv
      subst hl
      simpa using hb
    · have hbd := utf8ValidateOne_valid_bounds hv
      have hlt : (a.drop n).length < a.length := by simp; omega
      have hdrop := isUtf8_valid_drop hv ha
      have htail := ih (a.drop n) hlt b hdrop hb
      rw [isUtf8_iff, rustFromUtf8Err_eq, utf8ValidateOne_valid_append b hv]
      dsimp only
      rw [List.drop_append_of_le_length hbd.2]
      rw [errShift_eq_none]
      exact isUtf8_iff.mp htail
    · rw [isUtf8_iff, rustFromUtf8Err_eq, hv] at ha
      simp at ha
    · rw [isUtf8_iff, rustFromUtf8Err_eq, hv] at ha
      simp at ha

theorem isUtf8_drop_boundary : ∀ s : List Nat, ∀ i : Nat, isUtf8 s = true →
    is_char_boundary s i = true → isUtf8 (s.drop i) = true := by
  intro s
  induction s using listLenInd with
  | step s ih =>
    intro i hs hbnd
    rcases Nat.eq_zero_or_pos i with hi | hi
    · subst hi
      simpa using hs
    · rcases hv : utf8ValidateOne s with _ | ⟨cp, n⟩ | n | _
      · have hl : s = [] := utf8ValidateOne_empty_iff.mp hv
        subst hl
        unfold is_char_boundary at hbnd
        simp at hbnd
        omega
      · have hbd := utf8ValidateOne_valid_bounds hv
        have hlt : (s.drop n).length < s.length := by simp; omega
        have hin : n ≤ i := by
          by_contra hcon
          push_neg at hcon
          obtain ⟨bb, hget, hr1, hr2⟩ := utf8ValidateOne_valid_cont hv i hi hcon
          unfold is_char_boundary at hbnd
          rw [if_neg (by omega), hget] at hbnd
          simp at hbnd
          omega
        have hbnd2 : is_char_boundary (s.drop n) (i - n) = true := by
          rcases Nat.eq_or_lt_of_le hin with heq | hlt2
          · rw [← heq]
            simp [is_char_boundary]
          · unfold is_char_boundary
            rw [if_neg (by omega)]
            have hget2 : (s.drop n).get? (i - n) = s.get? i := by
              rw [List.get?_drop]
              congr 1
              omega
            rw [hget2]
            unfold is_char_boundary at hbnd
            rw [if_neg (by omega)] at hbnd
            rcases hg : s.get? i with _ | bb
            · rw [hg] at hbnd
              simp at hbnd ⊢
              omega
            · rw [hg] at hbnd
              exact hbnd
        have hdrop := isUtf8_valid_drop hv hs
        have := ih (s.drop n) hlt (i - n) hdrop hbnd2
        rw [List.drop_drop] at this
        have harith : n + (i - n) = i := by omega
        rwa [harith] at this
      · rw [isUtf8_iff, rustFromUtf8Err_eq, hv] at hs
        simp at hs
      · rw [isUtf8_iff, rustFromUtf8Err_eq, hv] at hs
        simp at hs

theorem findBoundaryFromF_ge : ∀ fuel (out : List Nat) (i : Nat),
    i ≤ findBoundaryFromF fuel out i := by
  intro fuel
  induction fuel with
  | zero => intro out i; simp [findBoundaryFromF]
  | succ f ih =>
    intro out i
    unfold findBoundaryFromF
    split
    · exact le_trans (by omega) (ih out (i + 1))
    · exact le_refl i

theorem findBoundaryFromF_le : ∀ fuel (out : List Nat) (i : Nat),
    i ≤ out.length → findBoundaryFromF fuel out i ≤ out.length := by
  intro fuel
  induction fuel with
  | zero => intro out i h; simpa [findBoundaryFromF] using h
  | succ f ih =>
    intro out i h
    unfold findBoundaryFromF
    split
    · rename_i hcond
      simp at hcond
      exact ih out (i + 1) (by omega)
    · exact h

theorem is_char_boundary_length (s : List Nat) :
    is_char_boundary s s.length = true := by
  unfold is_char_boundary
  split
  · rfl
  · rw [List.get?_eq_none.mpr (le_refl _)]
    simp

theorem findBoundaryFromF_boundary : ∀ fuel (out : List Nat) (i : Nat),
    i ≤ out.length → out.length + 1 - i ≤ fuel →
    is_char_boundary out (findBoundaryFromF fuel out i) = true := by
  intro fuel
  induction fuel with
  | zero => intro out i h1 h2; omega
  | succ f ih =>
    intro out i h1 h2
    unfold findBoundaryFromF
    split
    · rename_i hcond
      simp at hcond
      exact ih out (i + 1) (by omega) (by omega)
    · rename_i hcond
      rcases Nat.eq_or_lt_of_le h1 with heq | hlt
      · rw [heq]
        exact is_char_boundary_length out
      · simp [hlt] at hcond
        exact hcond

/-- C2: after any append_terminal_output call on a valid-UTF-8 buffer with a
valid-UTF-8 chunk, the buffer length exceeds the 1 MiB capacity by at most
the byte length of one code point (indeed it does not exceed it at all), the
buffer is valid UTF-8, and whatever was evicted is a prefix of the combined
buffer ending exactly on a character boundary. -/
theorem append_terminal_output_invariant (buffer chunk : List Nat)
    (hbuf : isUtf8 buffer = true) (hchunk : isUtf8 chunk = true) :
    (append_terminal_output buffer chunk).length ≤ MAX_TERMINAL_BUFFER_BYTES + 4 ∧
    isUtf8 (append_terminal_output buffer chunk) = true ∧
    ∃ d, is_char_boundary (buffer ++ chunk) d = true ∧
      append_terminal_output buffer chunk = (buffer ++ chunk).drop d := by
  have hout : isUtf8 (buffer ++ chunk) = true := isUtf8_append _ _ hbuf hchunk
  by_cases hlen : (buffer ++ chunk).length > MAX_TERMINAL_BUFFER_BYTES
  · have hov : (buffer ++ chunk).length - MAX_TERMINAL_BUFFER_BYTES ≤
        (buffer ++ chunk).length := by omega
    have hge := findBoundaryFromF_ge
      ((buffer ++ chunk).length + 1 -
        ((buffer ++ chunk).length - MAX_TERMINAL_BUFFER_BYTES))
      (buffer ++ chunk) ((buffer ++ chunk).length - MAX_TERMINAL_BUFFER_BYTES)
    have hbnd := findBoundaryFromF_boundary
      ((buffer ++ chunk).length + 1 -
        ((buffer ++ chunk).length - MAX_TERMINAL_BUFFER_BYTES))
      (buffer ++ chunk) ((buffer ++ chunk).length - MAX_TERMINAL_BUFFER_BYTES)
      hov (le_refl _)
    have hres : append_terminal_output buffer chunk =
        (buffer ++ chunk).drop
          (findBoundaryFromF
            ((buffer ++ chunk).length + 1 -
              ((buffer ++ chunk).length - MAX_TERMINAL_BUFFER_BYTES))
            (buffer ++ chunk)
            ((buffer ++ chunk).length - MAX_TERMINAL_BUFFER_BYTES)) := by
      simp only [append_terminal_output]
      rw [if_pos hlen]
    rw [hres]
    refine ⟨?_, isUtf8_drop_boundary _ _ hout hbnd, _, hbnd, rfl⟩
    simp only [List.length_drop]
    omega
  · have hres : append_terminal_output buffer chunk = buffer ++ chunk := by
      simp only [append_terminal_output]
      rw [if_neg hlen]
    rw [hres]
    refine ⟨by omega, hout, 0, by simp [is_char_boundary], by simp⟩

theorem append_terminal_output_invariant_witness :
    isUtf8 [104] = true ∧ isUtf8 [0xC3, 0xA9] = true ∧
    ((append_terminal_output [104] [0xC3, 0xA9]).length ≤
        MAX_TERMINAL_BUFFER_BYTES + 4 ∧
      isUtf8 (append_terminal_output [104] [0xC3, 0xA9]) = true ∧
      ∃ d, is_char_boundary ([104] ++ [0xC3, 0xA9]) d = true ∧
        append_terminal_output [104] [0xC3, 0xA9] = ([104] ++ [0xC3, 0xA9]).drop d) :=
  ⟨by decide, by decide,
    append_terminal_output_invariant [104] [0xC3, 0xA9] (by decide) (by decide)⟩


theorem decimalValue_append_digit (l : List Nat) (d : Nat) :
    decimalValue (l ++ [d]) = decimalValue l * 10 + (d - 48) := by
  unfold decimalValue
  rw [List.foldl_append]
  rfl

theorem natToDecimalAux_spec : ∀ fuel n, n < fuel →
    (∀ d ∈ natToDecimalAux fuel n, 48 ≤ d ∧ d ≤ 57) ∧
    natToDecimalAux fuel n ≠ [] ∧
    decimalValue (natToDecimalAux fuel n) = n := by
  intro fuel
  induction fuel with
  | zero => intro n h; omega
  | succ f ih =>
    intro n h
    by_cases hn : n < 10
    · refine ⟨?_, ?_, ?_⟩ <;> simp [natToDecimalAux, hn, decimalValue] <;> omega
    · have hdiv : n / 10 < n := Nat.div_lt_self (by omega) (by omega)
      have hfuel : n / 10 < f := by omega
      obtain ⟨ihd, ihne, ihv⟩ := ih (n / 10) hfuel
      have hstep : natToDecimalAux (f + 1) n =
          natToDecimalAux f (n / 10) ++ [48 + n % 10] := by
        simp [natToDecimalAux, hn]
      rw [hstep]
      refine ⟨?_, by simp, ?_⟩
      · intro d hd
        rcases List.mem_append.mp hd with hd1 | hd2
        · exact ihd d hd1
        · have hdv : d = 48 + n % 10 := by simpa using hd2
          have := Nat.mod_lt n (show 0 < 10 by omega)
          omega
      · rw [decimalValue_append_digit, ihv]
        have := Nat.mod_lt n (show 0 < 10 by omega)
        have hdm := Nat.div_add_mod n 10
        omega

theorem natToDecimal_spec (n : Nat) :
    (∀ d ∈ natToDecimal n, 48 ≤ d ∧ d ≤ 57) ∧ natToDecimal n ≠ [] ∧
      decimalValue (natToDecimal n) = n :=
  natToDecimalAux_spec (n + 1) n (by omega)

theorem parseUsize_digits (d : List Nat) (hne : d ≠ [])
    (hdig : ∀ c ∈ d, 48 ≤ c ∧ c ≤ 57) :
    parseUsize d = some (decimalValue d) := by
  unfold parseUsize
  cases hl : d with
  | nil => exact absurd hl hne
  | cons c cs =>
    have hc : 48 ≤ c ∧ c ≤ 57 := hdig c (by rw [hl]; exact List.mem_cons_self c cs)
    have hc43 : ¬ (c = 43) := by omega
    dsimp only
    rw [if_neg hc43]
    rw [if_neg (by simp)]
    have hall : (c :: cs).all (fun x => 48 ≤ x && x ≤ 57) = true := by
      rw [List.all_eq_true]
      intro x hx
      have := hdig x (by rw [hl]; exact hx)
      simp
      omega
    rw [if_pos hall, ← hl]

theorem parseUsize_natToDecimal (n : Nat) :
    parseUsize (natToDecimal n) = some n := by
  obtain ⟨hd, hne, hv⟩ := natToDecimal_spec n
  rw [parseUsize_digits (natToDecimal n) hne hd, hv]

/-- C3: for a running session and a payload that is non-blank after trimming,
lsp_send writes exactly the ASCII bytes Content-Length: SP digits CRLF CRLF
immediately followed by exactly the raw payload bytes with no trailing
terminator, where the digits are the decimal rendering of the payload byte
length; and a failure of the header write, the payload write, or the flush
makes the call return an error. -/
theorem lsp_send_wire (payload : List Nat) (headerOk payloadOk flushOk : Bool)
    (hp : rustTrim payload ≠ []) :
    (headerOk = true → payloadOk = true → flushOk = true →
      ∃ d, lsp_send .running payload headerOk payloadOk flushOk =
          .ok (clHeaderName ++ [32] ++ d ++ [13, 10, 13, 10] ++
            utf8Encode payload) ∧
        parseUsize d = some (utf8Encode payload).length ∧
        ∀ c ∈ d, 48 ≤ c ∧ c ≤ 57) ∧
    (headerOk = false ∨ payloadOk = false ∨ flushOk = false →
      ∃ e, lsp_send .running payload headerOk payloadOk flushOk = .error e) := by
  constructor
  · intro h1 h2 h3
    subst h1; subst h2; subst h3
    refine ⟨natToDecimal (utf8Encode payload).length, ?_,
      parseUsize_natToDecimal _, fun c hc => (natToDecimal_spec _).1 c hc⟩
    simp [lsp_send, hp]
  · intro hfail
    cases headerOk <;> cases payloadOk <;> cases flushOk <;>
      simp_all [lsp_send]

theorem lsp_send_wire_witness :
    rustTrim [120] ≠ [] ∧
    ((true = true → true = true → true = true →
      ∃ d, lsp_send .running [120] true true true =
          .ok (clHeaderName ++ [32] ++ d ++ [13, 10, 13, 10] ++
            utf8Encode [120]) ∧
        parseUsize d = some (utf8Encode [120]).length ∧
        ∀ c ∈ d, 48 ≤ c ∧ c ≤ 57) ∧
    (true = false ∨ true = false ∨ true = false →
      ∃ e, lsp_send .running [120] true true true = .error e)) :=
  ⟨by decide, lsp_send_wire [120] true true true (by decide)⟩

/-- C4: on the exact stream Content-Length: 5 CRLF CRLF HELLO followed by end
of stream, the frame reader returns the single frame HELLO and consumes the
whole input, and the next call (on the now-empty stream) returns a clean
non-error end-of-input. -/
theorem read_lsp_payload_hello :
    read_lsp_payload (asciiOf "Content-Length: 5\r\n\r\nHELLO") =
      ⟨.ok (some (asciiOf "HELLO")), []⟩ ∧
    read_lsp_payload [] = ⟨.ok none, []⟩ := by
  constructor <;> decide

theorem ascii_isUtf8 : ∀ l : List Nat, (∀ b ∈ l, b < 0x80) → isUtf8 l = true := by
  intro l
  induction l with
  | nil => intro _; decide
  | cons b rest ih =>
    intro h
    have hb : b < 0x80 := h b (List.mem_cons_self _ _)
    have hv : utf8ValidateOne (b :: rest) = .valid b 1 := by
      simp [utf8ValidateOne, hb]
    rw [isUtf8_iff, rustFromUtf8Err_eq, hv]
    dsimp only
    rw [errShift_eq_none]
    exact isUtf8_iff.mp (ih (fun x hx => h x (List.mem_cons_of_mem _ hx)))

theorem ascii_decode : ∀ l : List Nat, (∀ b ∈ l, b < 0x80) →
    utf8DecodeAll l = l := by
  intro l
  induction l with
  | nil => intro _; decide
  | cons b rest ih =>
    intro h
    have hb : b < 0x80 := h b (List.mem_cons_self _ _)
    have hv : utf8ValidateOne (b :: rest) = .valid b 1 := by
      simp [utf8ValidateOne, hb]
    rw [utf8DecodeAll_eq, hv]
    dsimp only
    rw [List.drop_one]
    simp only [List.tail_cons]
    rw [ih (fun x hx => h x (List.mem_cons_of_mem _ hx))]

theorem read_line_append : ∀ l m : List Nat, (∀ b ∈ l, b ≠ 10) →
    read_line (l ++ 10 :: m) = (l ++ [10], m) := by
  intro l
  induction l with
  | nil => intro m _; simp [read_line]
  | cons b rest ih =>
    intro m h
    have hb : b ≠ 10 := h b (List.mem_cons_self _ _)
    have ih2 := ih m (fun x hx => h x (List.mem_cons_of_mem _ hx))
    show read_line ((b :: rest) ++ 10 :: m) = ((b :: rest) ++ [10], m)
    rw [List.cons_append]
    rw [show read_line (b :: (rest ++ 10 :: m)) =
        (b :: (read_line (rest ++ 10 :: m)).1, (read_line (rest ++ 10 :: m)).2)
      from by simp [read_line, hb]]
    rw [ih2]
    simp

theorem digit_not_ws {c : Nat} (h1 : 48 ≤ c) (h2 : c ≤ 57) :
    isRustWhitespace c = false := by
  unfold isRustWhitespace
  simp
  omega

theorem stripLeading_self_append : ∀ p s : List Nat,
    stripLeading p (p ++ s) = some s := by
  intro p
  induction p with
  | nil => intro s; rfl
  | cons a ps ih => intro s; simp [stripLeading, ih]

theorem rustTrim_space_digits (d : List Nat) (hne : d ≠ [])
    (hdig : ∀ c ∈ d, 48 ≤ c ∧ c ≤ 57) :
    rustTrim (32 :: d) = d := by
  obtain ⟨c0, cs0, hc0⟩ : ∃ c0 cs0, d = c0 :: cs0 := by
    cases d with
    | nil => exact absurd rfl hne
    | cons c0 cs0 => exact ⟨c0, cs0, rfl⟩
  obtain ⟨c, cs, hrev⟩ : ∃ c cs, d.reverse = c :: cs := by
    cases hr : d.reverse with
    | nil => exact absurd (List.reverse_eq_nil_iff.mp hr) hne
    | cons c cs => exact ⟨c, cs, rfl⟩
  have hcd : c ∈ d := by
    rw [← List.mem_reverse, hrev]
    exact List.mem_cons_self _ _
  have hc0d : c0 ∈ d := by rw [hc0]; exact List.mem_cons_self _ _
  have hws0 : isRustWhitespace c0 = false :=
    digit_not_ws (hdig c0 hc0d).1 (hdig c0 hc0d).2
  have hws : isRustWhitespace c = false :=
    digit_not_ws (hdig c hcd).1 (hdig c hcd).2
  unfold rustTrim
  have h1 : List.dropWhile isRustWhitespace (32 :: d) =
      List.dropWhile isRustWhitespace d := by
    rw [List.dropWhile_cons]
    simp [show isRustWhitespace 32 = true from by decide]
  have h2 : List.dropWhile isRustWhitespace d = d := by
    rw [hc0, List.dropWhile_cons]
    simp [hws0]
  have h3 : List.dropWhile isRustWhitespace d.reverse = d.reverse := by
    rw [hrev, List.dropWhile_cons]
    simp [hws]
  rw [h1, h2, h3, List.reverse_reverse]

theorem rustTrim_header_line (d : List Nat) (hne : d ≠ [])
    (hdig : ∀ c ∈ d, 48 ≤ c ∧ c ≤ 57) :
    rustTrim ((clHeaderName ++ [32] ++ d ++ [13]) ++ [10]) =
      clHeaderName ++ [32] ++ d := by
  obtain ⟨c, cs, hrev⟩ : ∃ c cs, d.reverse = c :: cs := by
    cases hr : d.reverse with
    | nil => exact absurd (List.reverse_eq_nil_iff.mp hr) hne
    | cons c cs => exact ⟨c, cs, rfl⟩
  have hcd : c ∈ d := by
    rw [← List.mem_reverse, hrev]
    exact List.mem_cons_self _ _
  have hws : isRustWhitespace c = false :=
    digit_not_ws (hdig c hcd).1 (hdig c hcd).2
  have hcl : clHeaderName =
      67 :: [111, 110, 116, 101, 110, 116, 45, 76, 101, 110, 103, 116, 104, 58] := by
    decide
  have hd2 : d = cs.reverse ++ [c] := by
    have hrr : d.reverse.reverse = (c :: cs).reverse := by rw [hrev]
    simpa using hrr
  unfold rustTrim
  rw [hcl, hd2]
  simp [List.dropWhile_cons, hws,
    show isRustWhitespace 67 = false from by decide,
    show isRustWhitespace 10 = true from by decide,
    show isRustWhitespace 13 = true from by decide]

theorem readHeaderLoop_cl_step (fuel : Nat) (d rest2 : List Nat)
    (cl : Option Nat) (hne : d ≠ []) (hdig : ∀ c ∈ d, 48 ≤ c ∧ c ≤ 57) :
    readHeaderLoopF (fuel + 1) (clHeaderName ++ [32] ++ d ++ (13 :: 10 :: rest2)) cl =
      readHeaderLoopF fuel rest2 (some (decimalValue d)) := by
  have hsplit : clHeaderName ++ [32] ++ d ++ (13 :: 10 :: rest2) =
      (clHeaderName ++ [32] ++ d ++ [13]) ++ 10 :: rest2 := by
    simp
  have hno10 : ∀ b ∈ clHeaderName ++ [32] ++ d ++ [13], b ≠ 10 := by
    intro b hb
    simp only [List.append_assoc, List.mem_append] at hb
    rcases hb with hb | hb | hb | hb
    · have hcl10 : ∀ x ∈ clHeaderName, x ≠ 10 := by decide
      exact hcl10 b hb
    · simp at hb; omega
    · have := hdig b hb; omega
    · simp at hb; omega
  have hline := read_line_append (clHeaderName ++ [32] ++ d ++ [13]) rest2 hno10
  have hascii : ∀ b ∈ (clHeaderName ++ [32] ++ d ++ [13]) ++ [10], b < 0x80 := by
    intro b hb
    simp only [List.append_assoc, List.mem_append] at hb
    rcases hb with hb | hb | hb | hb | hb
    · have hcla : ∀ x ∈ clHeaderName, x < 0x80 := by decide
      exact hcla b hb
    · simp at hb; omega
    · have := hdig b hb; omega
    · simp at hb; omega
    · simp at hb; omega
  have hutf := ascii_isUtf8 _ hascii
  have hdec := ascii_decode _ hascii
  have hlen : ((clHeaderName ++ [32] ++ d ++ [13]) ++ [10]).length ≠ 0 := by
    simp
  have hnotblank1 : (clHeaderName ++ [32] ++ d ++ [13]) ++ [10] ≠ [13, 10] := by
    rw [show clHeaderName = 67 :: [111, 110, 116, 101, 110, 116, 45, 76, 101,
      110, 103, 116, 104, 58] from by decide]
    intro hcon
    simp at hcon
  have hnotblank2 : (clHeaderName ++ [32] ++ d ++ [13]) ++ [10] ≠ [10] := by
    rw [show clHeaderName = 67 :: [111, 110, 116, 101, 110, 116, 45, 76, 101,
      110, 103, 116, 104, 58] from by decide]
    intro hcon
    simp at hcon
  have htrim := rustTrim_header_line d hne hdig
  have hstrip : stripLeading clHeaderName (clHeaderName ++ [32] ++ d) =
      some (32 :: d) := by
    have hassoc : clHeaderName ++ [32] ++ d = clHeaderName ++ (32 :: d) := by simp
    rw [hassoc, stripLeading_self_append]
  have htrim2 := rustTrim_space_digits d hne hdig
  have hparse := parseUsize_digits d hne hdig
  rw [hsplit]
  simp only [readHeaderLoopF, hline]
  rw [if_neg (by simpa using hlen)]
  rw [if_neg (by rw [hutf]; simp)]
  rw [if_neg (by rw [hdec]; exact not_or.mpr ⟨hnotblank1, hnotblank2⟩)]
  rw [hdec, htrim, hstrip]
  dsimp only
  rw [htrim2, hparse]

theorem readHeaderLoop_blank_step (fuel : Nat) (rest : List Nat)
    (cl : Option Nat) :
    readHeaderLoopF (fuel + 1) (13 :: 10 :: rest) cl = (.ok (some cl), rest) := by
  have hline : read_line (13 :: 10 :: rest) = ([13, 10], rest) := by
    simp [read_line]
  simp only [readHeaderLoopF, hline]
  rw [if_neg (by simp)]
  rw [if_neg (by rw [show isUtf8 [13, 10] = true from by decide]; simp)]
  rw [if_pos (by rw [show utf8DecodeAll [13, 10] = [13, 10] from by decide]; simp)]

theorem readHeaderLoop_eof (fuel : Nat) (cl : Option Nat) :
    readHeaderLoopF (fuel + 1) [] cl = (.ok none, []) := by
  simp [readHeaderLoopF, read_line]

/-- C8: a frame whose Content-Length header declares any value above the
16 MiB maximum makes the frame reader fail right after the header block, with
the entire body left unread on the stream. -/
theorem read_lsp_payload_oversize (n : Nat) (body : List Nat)
    (h : n > MAX_LSP_PAYLOAD_BYTES) :
    read_lsp_payload
        (clHeaderName ++ [32] ++ natToDecimal n ++ (13 :: 10 :: 13 :: 10 :: body)) =
      ⟨.error "LSP payload exceeds maximum size", body⟩ := by
  obtain ⟨hdig, hne, hval⟩ := natToDecimal_spec n
  unfold read_lsp_payload
  rw [readHeaderLoop_cl_step _ (natToDecimal n) (13 :: 10 :: body) none hne hdig]
  obtain ⟨k, hk⟩ : ∃ k, (clHeaderName ++ [32] ++ natToDecimal n ++
      (13 :: 10 :: 13 :: 10 :: body)).length = k + 1 := by
    refine ⟨(clHeaderName ++ [32] ++ natToDecimal n ++
      (13 :: 10 :: 13 :: 10 :: body)).length - 1, ?_⟩
    simp only [List.length_append, List.length_cons]
    omega
  rw [hk, readHeaderLoop_blank_step, hval]
  dsimp only
  rw [if_pos h]

theorem read_lsp_payload_oversize_witness :
    16 * 1024 * 1024 + 1 > MAX_LSP_PAYLOAD_BYTES ∧
    read_lsp_payload
        (clHeaderName ++ [32] ++ natToDecimal (16 * 1024 * 1024 + 1) ++
          (13 :: 10 :: 13 :: 10 :: [72, 73])) =
      ⟨.error "LSP payload exceeds maximum size", [72, 73]⟩ :=
  ⟨by decide, read_lsp_payload_oversize (16 * 1024 * 1024 + 1) [72, 73] (by decide)⟩

/-- C10: when the stream ends cleanly right after a complete Content-Length
header line (before the blank line that would terminate the header block),
the frame reader returns a clean non-error end-of-input (ok none), discarding
the partial frame. -/
theorem read_lsp_payload_partial_header (n : Nat) :
    read_lsp_payload (clHeaderName ++ [32] ++ natToDecimal n ++ [13, 10]) =
      ⟨.ok none, []⟩ := by
  obtain ⟨hdig, hne, hval⟩ := natToDecimal_spec n
  unfold read_lsp_payload
  rw [show (([13, 10] : List Nat)) = 13 :: 10 :: [] from rfl]
  rw [readHeaderLoop_cl_step _ (natToDecimal n) [] none hne hdig]
  obtain ⟨k, hk⟩ : ∃ k, (clHeaderName ++ [32] ++ natToDecimal n ++
      (13 :: 10 :: ([] : List Nat))).length = k + 1 := by
    refine ⟨(clHeaderName ++ [32] ++ natToDecimal n ++
      (13 :: 10 :: ([] : List Nat))).length - 1, ?_⟩
    simp only [List.length_append, List.length_cons]
    omega
  rw [hk, readHeaderLoop_eof]

theorem terminal_list_counterexample :
    terminal_list [mkTermSession 2, mkTermSession 10] ≠
      [terminal_state_to_session (mkTermSession 2),
        terminal_state_to_session (mkTermSession 10)] := by
  decide

/-- C5 (amended): terminal_list returns the summaries of the registered
sessions sorted in ascending byte-wise lexicographic order of their id
strings (a permutation of the registry contents); that order agrees with
creation order only while all ids have the same number of digits, since the
id terminal-10 sorts before terminal-2. -/
theorem terminal_list_sorted_by_id (sessions : List TermSession) :
    List.Sorted idLe (terminal_list sessions) ∧
    List.Perm (terminal_list sessions) (sessions.map terminal_state_to_session) :=
  ⟨List.sorted_insertionSort idLe _, List.perm_insertionSort idLe _⟩

/-- C6: every status assignment the source performs moves a session status
only forward along running to disconnected or closed and disconnected to
closed: the close/stop paths set closed unconditionally, the
reader-termination and cleanup paths set disconnected only from running, and
write/resize/clear/send leave the status untouched; consequently no operation
ever produces a running status from a non-running one, and a closed session
never becomes disconnected. -/
theorem session_status_monotonic :
    (∀ s, statusStepOk s (close_status_update s) = true) ∧
    (∀ s, statusStepOk s (disconnect_status_update s) = true) ∧
    (∀ s, statusStepOk s (command_status_update s) = true) ∧
    (∀ s t, statusStepOk s t = true → t = Status.running → s = Status.running) ∧
    (∀ t, statusStepOk Status.closed t = true → t = Status.closed) :=
  ⟨fun s => by cases s <;> decide,
    fun s => by cases s <;> decide,
    fun s => by cases s <;> decide,
    fun s t => by cases s <;> cases t <;> decide,
    fun t => by cases t <;> decide⟩

theorem terminal_write_empty_closed_ok :
    (terminal_write (terminal_close [(termId 1, mkTermSession 1)] (termId 1)).1
        (termId 1) [] true true).result = .ok true := by
  decide

/-- C7 (amended): for every non-empty input, terminal_write on a session id
that is absent from the registry (in particular one removed by
terminal_close) or whose session is not running returns a not-found or
not-running error, leaves the registry unchanged, and writes nothing to the
PTY.  (With empty input the call instead succeeds as a no-op, see the
counterexample.) -/
theorem terminal_write_dead_session (reg : List (List Nat × TermSession))
    (sid input : List Nat) (writeOk flushOk : Bool) (hne : input ≠ [])
    (hdead : lookupSession reg sid = none ∨
      ∃ s, lookupSession reg sid = some s ∧ s.status ≠ Status.running) :
    (∃ e, (terminal_write reg sid input writeOk flushOk).result = .error e) ∧
    (terminal_write reg sid input writeOk flushOk).reg = reg ∧
    (terminal_write reg sid input writeOk flushOk).written = [] := by
  unfold terminal_write
  rw [if_neg hne]
  rcases hdead with hd | ⟨s, hs, hst⟩
  · rw [hd]
    exact ⟨⟨_, rfl⟩, rfl, rfl⟩
  · rw [hs]
    dsimp only
    rw [if_pos hst]
    exact ⟨⟨_, rfl⟩, rfl, rfl⟩

theorem terminal_write_dead_session_witness :
    ([120] : List Nat) ≠ [] ∧
    lookupSession (terminal_close [(termId 1, mkTermSession 1)] (termId 1)).1
      (termId 1) = none ∧
    ((∃ e, (terminal_write
        (terminal_close [(termId 1, mkTermSession 1)] (termId 1)).1
        (termId 1) [120] true true).result = .error e) ∧
      (terminal_write (terminal_close [(termId 1, mkTermSession 1)] (termId 1)).1
        (termId 1) [120] true true).reg =
        (terminal_close [(termId 1, mkTermSession 1)] (termId 1)).1 ∧
      (terminal_write (terminal_close [(termId 1, mkTermSession 1)] (termId 1)).1
        (termId 1) [120] true true).written = []) :=
  ⟨by decide, by decide,
    terminal_write_dead_session _ _ _ true true (by decide) (Or.inl (by decide))⟩

/-- C9: terminal_write with an empty input string returns success without
consulting the session registry: for every registry contents and every id,
including ids never created or already removed, the call returns ok, leaves
the registry unchanged, and writes nothing. -/
theorem terminal_write_empty_noop (reg : List (List Nat × TermSession))
    (sid : List Nat) (writeOk flushOk : Bool) :
    terminal_write reg sid [] writeOk flushOk = ⟨.ok true, reg, []⟩ := by
  unfold terminal_write
  rw [if_pos rfl]

end Vexc
